import Mathlib

/-
Verification of the tommyds dynamic chained hashtable (tommyhashdyn).

The shallow embedding models a bucket chain as a Lean list of nodes and the
bucket array as a list of chains.  The inline accessors of tommyhashdyn.h
(tommy_hashdyn_bucket, tommy_hashdyn_search, tommy_hashdyn_count) are
translated directly from the header source.  The out-of-line operations
(init, insert, remove, remove_existing and the resize engine) are declared
in the header but their bodies are not part of the sources at hand, so they
are modelled from the specification text (sections 4.3-4.6).
-/

namespace Tommy

/-- Hashtable node: the intrusive link carries the stored hash (`key`) and the
opaque payload (`data`, a pointer modelled as a natural number, 0 = null). -/
structure tommy_node where
  key : Nat
  data : Nat
deriving DecidableEq

/-- The hashtable control block of tommyhashdyn.h: bucket array, bit count,
bucket count, bit mask and element count.  Chains are modelled as lists. -/
structure tommy_hashdyn where
  bucket : List (List tommy_node)
  bucket_bit : Nat
  bucket_max : Nat
  bucket_mask : Nat
  count : Nat

/-- Initial and minimal size of the hashtable expressed as a power of 2. -/
def TOMMY_HASHDYN_BIT : Nat := 4

/-- Source translation of tommy_hashdyn_bucket:
return hashdyn.bucket[hash & hashdyn.bucket_mask]. -/
def tommy_hashdyn_bucket (hashdyn : tommy_hashdyn) (hash : Nat) : List tommy_node :=
  hashdyn.bucket.getD (hash &&& hashdyn.bucket_mask) []

/-- Source translation of the scanning loop of tommy_hashdyn_search:
walk the chain, check the stored hash first, then the compare function,
return the first matching payload or 0. -/
def searchLoop (cmp : Nat → Nat → Int) (cmp_arg : Nat) (hash : Nat) :
    List tommy_node → Nat
  | [] => 0
  | i :: rest =>
    if i.key = hash ∧ cmp cmp_arg i.data = 0 then i.data
    else searchLoop cmp cmp_arg hash rest

/-- Source translation of tommy_hashdyn_search. -/
def tommy_hashdyn_search (hashdyn : tommy_hashdyn) (cmp : Nat → Nat → Int)
    (cmp_arg : Nat) (hash : Nat) : Nat :=
  searchLoop cmp cmp_arg hash (tommy_hashdyn_bucket hashdyn hash)

/-- Source translation of tommy_hashdyn_count. -/
def tommy_hashdyn_count (hashdyn : tommy_hashdyn) : Nat :=
  hashdyn.count

/-- Modelled from the spec: tommy_hashdyn_init (body not in the sources at
hand).  Created empty with the minimum bucket array: capacity 16 = 2^4. -/
def tommy_hashdyn_init : tommy_hashdyn :=
  { bucket := List.replicate (2 ^ TOMMY_HASHDYN_BIT) []
    bucket_bit := TOMMY_HASHDYN_BIT
    bucket_max := 2 ^ TOMMY_HASHDYN_BIT
    bucket_mask := 2 ^ TOMMY_HASHDYN_BIT - 1
    count := 0 }

/-- Modelled from the spec: the resize engine (sections 4.5 and 4.6, body not
in the sources at hand).  Allocate a new bucket array of size 2^new_bit and
re-link every node into the bucket selected by key & new_mask. -/
def tommy_hashdyn_resize (hashdyn : tommy_hashdyn) (new_bit : Nat) : tommy_hashdyn :=
  let new_max := 2 ^ new_bit
  let new_mask := new_max - 1
  let nodes := hashdyn.bucket.flatten
  { bucket := (List.range new_max).map
      (fun j => nodes.filter (fun n => n.key &&& new_mask == j))
    bucket_bit := new_bit
    bucket_max := new_max
    bucket_mask := new_mask
    count := hashdyn.count }

/-- Modelled from the spec: the grow condition of section 4.3 — grow first
when count + 1 would exceed half of the current bucket capacity. -/
def growCond (hashdyn : tommy_hashdyn) : Bool :=
  decide (hashdyn.count + 1 > hashdyn.bucket_max / 2)

/-- Modelled from the spec: the shrink condition of section 4.4 — shrink
when count - 1 would drop below one-eighth of the current bucket capacity
and the capacity is above the minimum. -/
def shrinkCond (hashdyn : tommy_hashdyn) : Bool :=
  decide (hashdyn.count - 1 < hashdyn.bucket_max / 8 ∧
          hashdyn.bucket_bit > TOMMY_HASHDYN_BIT)

/-- Modelled from the spec: tommy_hashdyn_insert (body not in the sources at
hand).  Check the grow condition before linking; then set the node's hash
and payload and prepend it to the head of its bucket chain; count increments. -/
def tommy_hashdyn_insert (hashdyn : tommy_hashdyn) (data hash : Nat) : tommy_hashdyn :=
  let h := if growCond hashdyn
           then tommy_hashdyn_resize hashdyn (hashdyn.bucket_bit + 1)
           else hashdyn
  let pos := hash &&& h.bucket_mask
  { h with
    bucket := h.bucket.set pos (⟨hash, data⟩ :: h.bucket.getD pos [])
    count := h.count + 1 }

/-- Whether some node of the chain matches the given hash and comparator. -/
def chainMatch (cmp : Nat → Nat → Int) (cmp_arg : Nat) (hash : Nat)
    (l : List tommy_node) : Bool :=
  l.any (fun n => n.key == hash && cmp cmp_arg n.data == 0)

/-- Unlink the first node of the chain matching the hash and comparator,
returning its payload and the remaining chain. -/
def removeFirst (cmp : Nat → Nat → Int) (cmp_arg : Nat) (hash : Nat) :
    List tommy_node → Nat × List tommy_node
  | [] => (0, [])
  | n :: rest =>
    if n.key = hash ∧ cmp cmp_arg n.data = 0 then (n.data, rest)
    else
      let r := removeFirst cmp cmp_arg hash rest
      (r.1, n :: r.2)

/-- Modelled from the spec: tommy_hashdyn_remove (body not in the sources at
hand).  If nothing matches, the table is left unchanged and 0 is returned
(no shrink is committed on a miss).  On a confirmed removal the shrink
condition is checked first; then the first matching node is unlinked from
its chain, count decrements and its payload is returned. -/
def tommy_hashdyn_remove (hashdyn : tommy_hashdyn) (cmp : Nat → Nat → Int)
    (cmp_arg : Nat) (hash : Nat) : tommy_hashdyn × Nat :=
  if chainMatch cmp cmp_arg hash (tommy_hashdyn_bucket hashdyn hash) then
    let h := if shrinkCond hashdyn
             then tommy_hashdyn_resize hashdyn (hashdyn.bucket_bit - 1)
             else hashdyn
    let pos := hash &&& h.bucket_mask
    let r := removeFirst cmp cmp_arg hash (h.bucket.getD pos [])
    ({ h with bucket := h.bucket.set pos r.2, count := h.count - 1 }, r.1)
  else (hashdyn, 0)

/-- Unlink the first occurrence of the given node from the chain. -/
def removeNode (node : tommy_node) : List tommy_node → List tommy_node
  | [] => []
  | n :: rest => if n = node then rest else n :: removeNode node rest

/-- Modelled from the spec: tommy_hashdyn_remove_existing (body not in the
sources at hand).  The caller guarantees membership; the node is unlinked
from its bucket chain, count decrements and its payload is returned.  Per
the recommendation of section 9 it applies the same shrink check as remove. -/
def tommy_hashdyn_remove_existing (hashdyn : tommy_hashdyn) (node : tommy_node) :
    tommy_hashdyn × Nat :=
  let h := if shrinkCond hashdyn
           then tommy_hashdyn_resize hashdyn (hashdyn.bucket_bit - 1)
           else hashdyn
  let pos := node.key &&& h.bucket_mask
  ({ h with
     bucket := h.bucket.set pos (removeNode node (h.bucket.getD pos []))
     count := h.count - 1 }, node.data)

/-! ### Basic list helpers -/

/-- Reading a bucket inside the array bound is a plain list indexing. -/
lemma bucket_getD_eq {α : Type} (l : List α) (d : α) (i : Nat) (h : i < l.length) :
    l.getD i d = l[i] := by
  simp [List.getD_eq_getElem?_getD, List.getElem?_eq_getElem h]

/-- Reading a bucket outside the array bound yields the default. -/
lemma bucket_getD_of_ge {α : Type} (l : List α) (d : α) (i : Nat) (h : l.length ≤ i) :
    l.getD i d = d := by
  simp [List.getD_eq_getElem?_getD, List.getElem?_eq_none h]

/-- Every node read from some bucket is in the flattened node list. -/
lemma mem_getD_imp_mem_flatten (l : List (List tommy_node)) (i : Nat) (n : tommy_node)
    (h : n ∈ l.getD i []) : n ∈ l.flatten := by
  by_cases hi : i < l.length
  · rw [bucket_getD_eq _ _ _ hi] at h
    exact List.mem_flatten.mpr ⟨l[i], List.getElem_mem hi, h⟩
  · rw [bucket_getD_of_ge _ _ _ (Nat.le_of_not_lt hi)] at h
    cases h

/-- Every node of the flattened node list is read from some bucket. -/
lemma mem_flatten_imp_exists_getD (l : List (List tommy_node)) (n : tommy_node)
    (h : n ∈ l.flatten) : ∃ i, i < l.length ∧ n ∈ l.getD i [] := by
  obtain ⟨s, hs, hn⟩ := List.mem_flatten.mp h
  obtain ⟨i, hi, rfl⟩ := List.mem_iff_getElem.mp hs
  exact ⟨i, hi, by rw [bucket_getD_eq _ _ _ hi]; exact hn⟩

/-! ### Resize engine lemmas -/

/-- A bucket of the resized table is the filter of all nodes mapping to it. -/
lemma resize_bucket_getD (h : tommy_hashdyn) (b j : Nat) (hj : j < 2 ^ b) :
    (tommy_hashdyn_resize h b).bucket.getD j [] =
      h.bucket.flatten.filter (fun n => n.key &&& (2 ^ b - 1) == j) := by
  have hl : j < ((List.range (2 ^ b)).map
      (fun j => h.bucket.flatten.filter (fun n => n.key &&& (2 ^ b - 1) == j))).length := by
    simpa using hj
  rw [tommy_hashdyn_resize, bucket_getD_eq _ _ _ hl]
  simp

/-- Membership in a resized bucket: in the table and mapped there by the new mask. -/
lemma mem_resize_iff (h : tommy_hashdyn) (b j : Nat) (n : tommy_node) (hj : j < 2 ^ b) :
    n ∈ (tommy_hashdyn_resize h b).bucket.getD j [] ↔
      n ∈ h.bucket.flatten ∧ n.key &&& (2 ^ b - 1) = j := by
  rw [resize_bucket_getD h b j hj, List.mem_filter]
  simp

/-- The resized bucket array has exactly the requested number of buckets. -/
lemma resize_bucket_length (h : tommy_hashdyn) (b : Nat) :
    (tommy_hashdyn_resize h b).bucket.length = 2 ^ b := by
  simp [tommy_hashdyn_resize]

/-- The new bucket index of a node is within the resized array. -/
lemma and_mask_lt (k b : Nat) : k &&& (2 ^ b - 1) < 2 ^ b := by
  have := Nat.and_le_right (n := k) (m := 2 ^ b - 1)
  have hpos : 0 < 2 ^ b := Nat.pos_pow_of_pos b (by norm_num)
  omega

/-! ### The structural invariant of the table -/

/-- Structural invariant: minimum size, power-of-two shape of the capacity,
mask and array length, and the bucket-membership property: every node stored
in bucket i has its hash mapped to i by the mask. -/
def HashInv (h : tommy_hashdyn) : Prop :=
  TOMMY_HASHDYN_BIT ≤ h.bucket_bit ∧
  h.bucket_max = 2 ^ h.bucket_bit ∧
  h.bucket_mask = h.bucket_max - 1 ∧
  h.bucket.length = h.bucket_max ∧
  ∀ i < h.bucket.length, ∀ n ∈ h.bucket.getD i [], n.key &&& h.bucket_mask = i

instance (h : tommy_hashdyn) : Decidable (HashInv h) := by
  unfold HashInv
  infer_instance

lemma hashInv_init : HashInv tommy_hashdyn_init := by decide

lemma hashInv_resize (h : tommy_hashdyn) (b : Nat) (hb : TOMMY_HASHDYN_BIT ≤ b) :
    HashInv (tommy_hashdyn_resize h b) := by
  refine ⟨hb, rfl, rfl, resize_bucket_length h b, ?_⟩
  intro i hi n hn
  rw [resize_bucket_length] at hi
  exact ((mem_resize_iff h b i n hi).mp hn).2

/-- The chain left by removeFirst only drops a node. -/
lemma removeFirst_subset (cmp : Nat → Nat → Int) (cmp_arg hash : Nat)
    (l : List tommy_node) (n : tommy_node)
    (h : n ∈ (removeFirst cmp cmp_arg hash l).2) : n ∈ l := by
  induction l with
  | nil => simpa [removeFirst] using h
  | cons m rest ih =>
    rw [removeFirst] at h
    by_cases hc : m.key = hash ∧ cmp cmp_arg m.data = 0
    · rw [if_pos hc] at h
      exact List.mem_cons_of_mem m h
    · rw [if_neg hc] at h
      rcases List.mem_cons.mp h with h1 | h2
      · exact h1 ▸ List.mem_cons_self m rest
      · exact List.mem_cons_of_mem m (ih h2)

/-- The chain left by removeNode only drops a node. -/
lemma removeNode_subset (node n : tommy_node) (l : List tommy_node)
    (h : n ∈ removeNode node l) : n ∈ l := by
  induction l with
  | nil => simpa [removeNode] using h
  | cons m rest ih =>
    rw [removeNode] at h
    by_cases hc : m = node
    · rw [if_pos hc] at h
      exact List.mem_cons_of_mem m h
    · rw [if_neg hc] at h
      rcases List.mem_cons.mp h with h1 | h2
      · exact h1 ▸ List.mem_cons_self m rest
      · exact List.mem_cons_of_mem m (ih h2)

/-- Setting one bucket to a chain of nodes mapped there preserves the
membership invariant. -/
lemma hashInv_set (h : tommy_hashdyn) (hinv : HashInv h) (pos : Nat)
    (c : List tommy_node)
    (hc : ∀ n ∈ c, n.key &&& h.bucket_mask = pos) :
    HashInv { h with bucket := h.bucket.set pos c } := by
  obtain ⟨h1, h2, h3, h4, h5⟩ := hinv
  refine ⟨h1, h2, h3, by simpa using h4, ?_⟩
  intro i hi n hn
  simp only [List.length_set] at hi
  by_cases hip : pos = i
  · subst hip
    rw [bucket_getD_eq _ _ _ (by simpa using hi), List.getElem_set_self] at hn
    exact hc n hn
  · rw [bucket_getD_eq _ _ _ (by simpa using hi), List.getElem_set_ne hip] at hn
    exact h5 i hi n (by rw [bucket_getD_eq _ _ _ hi]; exact hn)

lemma hashInv_insert (h : tommy_hashdyn) (data hash : Nat) (hinv : HashInv h) :
    HashInv (tommy_hashdyn_insert h data hash) := by
  rw [tommy_hashdyn_insert]
  set h1 := if growCond h then tommy_hashdyn_resize h (h.bucket_bit + 1) else h with hh1
  have hinv1 : HashInv h1 := by
    rw [hh1]
    by_cases hg : growCond h
    · rw [if_pos hg]
      exact hashInv_resize h _ (Nat.le_succ_of_le hinv.1)
    · rw [if_neg hg]
      exact hinv
  have hcount : HashInv { h1 with
      bucket := h1.bucket.set (hash &&& h1.bucket_mask)
        (⟨hash, data⟩ :: h1.bucket.getD (hash &&& h1.bucket_mask) []),
      count := h1.count + 1 } := by
    have hs := hashInv_set h1 hinv1 (hash &&& h1.bucket_mask)
      (⟨hash, data⟩ :: h1.bucket.getD (hash &&& h1.bucket_mask) []) ?_
    · exact hs
    · intro n hn
      rcases List.mem_cons.mp hn with h1' | h2'
      · rw [h1']
      · have hidx : hash &&& h1.bucket_mask < h1.bucket.length := by
          have := Nat.and_le_right (n := hash) (m := h1.bucket_mask)
          have : hash &&& h1.bucket_mask ≤ h1.bucket_max - 1 := hinv1.2.2.1 ▸ this
          have hpos : 0 < h1.bucket_max := hinv1.2.1 ▸ Nat.pos_pow_of_pos _ (by norm_num)
          have h4 := hinv1.2.2.2.1
          omega
        exact hinv1.2.2.2.2 _ hidx n h2'
  exact hcount

lemma hashInv_remove (h : tommy_hashdyn) (cmp : Nat → Nat → Int) (cmp_arg hash : Nat)
    (hinv : HashInv h) : HashInv (tommy_hashdyn_remove h cmp cmp_arg hash).1 := by
  rw [tommy_hashdyn_remove]
  by_cases hm : chainMatch cmp cmp_arg hash (tommy_hashdyn_bucket h hash)
  · rw [if_pos hm]
    set h1 := if shrinkCond h then tommy_hashdyn_resize h (h.bucket_bit - 1) else h with hh1
    have hinv1 : HashInv h1 := by
      rw [hh1]
      by_cases hs : shrinkCond h
      · rw [if_pos hs]
        refine hashInv_resize h _ ?_
        have := (of_decide_eq_true hs).2
        omega
      · rw [if_neg hs]
        exact hinv
    have hidx : hash &&& h1.bucket_mask < h1.bucket.length := by
      have ha := Nat.and_le_right (n := hash) (m := h1.bucket_mask)
      have h3 := hinv1.2.2.1
      have hpos : 0 < h1.bucket_max := hinv1.2.1 ▸ Nat.pos_pow_of_pos _ (by norm_num)
      have h4 := hinv1.2.2.2.1
      omega
    refine hashInv_set h1 hinv1 _ _ ?_
    intro n hn
    exact hinv1.2.2.2.2 _ hidx n (removeFirst_subset cmp cmp_arg hash _ n hn)
  · rw [if_neg hm]
    exact hinv

lemma hashInv_remove_existing (h : tommy_hashdyn) (node : tommy_node)
    (hinv : HashInv h) : HashInv (tommy_hashdyn_remove_existing h node).1 := by
  rw [tommy_hashdyn_remove_existing]
  set h1 := if shrinkCond h then tommy_hashdyn_resize h (h.bucket_bit - 1) else h with hh1
  have hinv1 : HashInv h1 := by
    rw [hh1]
    by_cases hs : shrinkCond h
    · rw [if_pos hs]
      refine hashInv_resize h _ ?_
      have := (of_decide_eq_true hs).2
      omega
    · rw [if_neg hs]
      exact hinv
  have hidx : node.key &&& h1.bucket_mask < h1.bucket.length := by
    have ha := Nat.and_le_right (n := node.key) (m := h1.bucket_mask)
    have h3 := hinv1.2.2.1
    have hpos : 0 < h1.bucket_max := hinv1.2.1 ▸ Nat.pos_pow_of_pos _ (by norm_num)
    have h4 := hinv1.2.2.2.1
    omega
  refine hashInv_set h1 hinv1 _ _ ?_
  intro n hn
  exact hinv1.2.2.2.2 _ hidx n (removeNode_subset node n _ hn)

/-- States reachable by any sequence of init, insert, remove and
remove_existing operations. -/
inductive Reachable : tommy_hashdyn → Prop
  | init : Reachable tommy_hashdyn_init
  | insert (h : tommy_hashdyn) (data hash : Nat) :
      Reachable h → Reachable (tommy_hashdyn_insert h data hash)
  | remove (h : tommy_hashdyn) (cmp : Nat → Nat → Int) (cmp_arg hash : Nat) :
      Reachable h → Reachable (tommy_hashdyn_remove h cmp cmp_arg hash).1
  | remove_existing (h : tommy_hashdyn) (node : tommy_node) :
      node ∈ h.bucket.getD (node.key &&& h.bucket_mask) [] →
      Reachable h → Reachable (tommy_hashdyn_remove_existing h node).1

lemma reachable_hashInv (h : tommy_hashdyn) (hr : Reachable h) : HashInv h := by
  induction hr with
  | init => exact hashInv_init
  | insert g data hash _ ih => exact hashInv_insert g data hash ih
  | remove g cmp cmp_arg hash _ ih => exact hashInv_remove g cmp cmp_arg hash ih
  | remove_existing g node _ _ ih => exact hashInv_remove_existing g node ih

/-! ### Search semantics -/

/-- Specification-side description of search (section 4.2 of the spec): the
payload of the first node of the chain at hash & bucket_mask whose stored
hash equals the given hash and whose payload the comparator accepts, or 0
when none does. -/
def tommy_hashdyn_search_spec (hashdyn : tommy_hashdyn) (cmp : Nat → Nat → Int)
    (cmp_arg hash : Nat) : Nat :=
  match (tommy_hashdyn_bucket hashdyn hash).find?
      (fun n => n.key == hash && cmp cmp_arg n.data == 0) with
  | some n => n.data
  | none => 0

/-- A comparator testing the payload for equality with the compare argument,
returning 0 (equal) or 1 (different) like a C compare function. -/
def cmpEq : Nat → Nat → Int :=
  fun cmp_arg data => if cmp_arg = data then 0 else 1

lemma searchLoop_eq_find (cmp : Nat → Nat → Int) (cmp_arg hash : Nat)
    (l : List tommy_node) :
    searchLoop cmp cmp_arg hash l =
      match l.find? (fun n => n.key == hash && cmp cmp_arg n.data == 0) with
      | some n => n.data
      | none => 0 := by
  induction l with
  | nil => simp [searchLoop]
  | cons m rest ih =>
    rw [searchLoop]
    by_cases hc : m.key = hash ∧ cmp cmp_arg m.data = 0
    · rw [if_pos hc, List.find?_cons_of_pos _ (by simp [hc.1, hc.2])]
    · rw [if_neg hc, List.find?_cons_of_neg _ (by simpa using hc), ih]

lemma searchLoop_congr (cmp cmp2 : Nat → Nat → Int) (cmp_arg hash : Nat)
    (l : List tommy_node)
    (hagree : ∀ n ∈ l, n.key = hash → cmp cmp_arg n.data = cmp2 cmp_arg n.data) :
    searchLoop cmp cmp_arg hash l = searchLoop cmp2 cmp_arg hash l := by
  induction l with
  | nil => rfl
  | cons m rest ih =>
    have ihr := ih (fun n hn hk => hagree n (List.mem_cons_of_mem m hn) hk)
    rw [searchLoop, searchLoop]
    by_cases hk : m.key = hash
    · have heq := hagree m (List.mem_cons_self m rest) hk
      by_cases hc : cmp cmp_arg m.data = 0
      · rw [if_pos ⟨hk, hc⟩, if_pos ⟨hk, heq ▸ hc⟩]
      · rw [if_neg (fun hh => hc hh.2), if_neg (fun hh => hc (heq ▸ hh.2)), ihr]
    · rw [if_neg (fun hh => hk hh.1), if_neg (fun hh => hk hh.1), ihr]

/-- C4: search scans only the chain at hash & bucket_mask from its head,
tests the stored hash first and the comparator only on hash equality, and
returns the payload of the first node in chain order satisfying both checks,
or 0 when none does. -/
theorem search_semantics_spec (h : tommy_hashdyn) (cmp : Nat → Nat → Int)
    (cmp_arg hash : Nat) :
    tommy_hashdyn_search h cmp cmp_arg hash =
      tommy_hashdyn_search_spec h cmp cmp_arg hash ∧
    (∀ cmp2 : Nat → Nat → Int,
      (∀ n ∈ tommy_hashdyn_bucket h hash, n.key = hash →
        cmp cmp_arg n.data = cmp2 cmp_arg n.data) →
      tommy_hashdyn_search h cmp cmp_arg hash =
        tommy_hashdyn_search h cmp2 cmp_arg hash) := by
  constructor
  · rw [tommy_hashdyn_search, tommy_hashdyn_search_spec, searchLoop_eq_find]
  · intro cmp2 hagree
    rw [tommy_hashdyn_search, tommy_hashdyn_search,
      searchLoop_congr cmp cmp2 cmp_arg hash _ hagree]

theorem search_semantics_witness :
    tommy_hashdyn_search (tommy_hashdyn_insert tommy_hashdyn_init 5 3) cmpEq 5 3 =
      tommy_hashdyn_search_spec (tommy_hashdyn_insert tommy_hashdyn_init 5 3) cmpEq 5 3 ∧
    tommy_hashdyn_search (tommy_hashdyn_insert tommy_hashdyn_init 5 3) cmpEq 5 3 = 5 :=
  ⟨(search_semantics_spec (tommy_hashdyn_insert tommy_hashdyn_init 5 3) cmpEq 5 3).1,
    by decide⟩

/-! ### Bounds safety of the bucket accessor -/

/-- C9: under the mask invariant the index hash & bucket_mask is strictly
below the bucket array length, and the accessor reads the actual array cell
(the in-bounds lookup succeeds). -/
theorem bucket_index_bounds_spec (h : tommy_hashdyn) (hash : Nat)
    (hlen : h.bucket.length = h.bucket_mask + 1) :
    hash &&& h.bucket_mask < h.bucket.length ∧
    h.bucket[hash &&& h.bucket_mask]? = some (tommy_hashdyn_bucket h hash) := by
  have hle := Nat.and_le_right (n := hash) (m := h.bucket_mask)
  have hlt : hash &&& h.bucket_mask < h.bucket.length := by omega
  refine ⟨hlt, ?_⟩
  rw [tommy_hashdyn_bucket, bucket_getD_eq _ _ _ hlt, List.getElem?_eq_getElem hlt]

theorem bucket_index_bounds_witness :
    tommy_hashdyn_init.bucket.length = tommy_hashdyn_init.bucket_mask + 1 ∧
    1000 &&& tommy_hashdyn_init.bucket_mask < tommy_hashdyn_init.bucket.length :=
  ⟨by decide, (bucket_index_bounds_spec tommy_hashdyn_init 1000 (by decide)).1⟩

/-! ### Termination of the search loop -/

/-- The search loop instrumented with explicit fuel: each chain step consumes
one unit; none means the walk did not reach the end of the chain. -/
def searchLoopFuel (fuel : Nat) (cmp : Nat → Nat → Int) (cmp_arg hash : Nat) :
    List tommy_node → Option Nat
  | [] => some 0
  | i :: rest =>
    match fuel with
    | 0 => none
    | f + 1 =>
      if i.key = hash ∧ cmp cmp_arg i.data = 0 then some i.data
      else searchLoopFuel f cmp cmp_arg hash rest

lemma searchLoopFuel_complete (cmp : Nat → Nat → Int) (cmp_arg hash : Nat)
    (l : List tommy_node) (fuel : Nat) (hf : l.length ≤ fuel) :
    searchLoopFuel fuel cmp cmp_arg hash l = some (searchLoop cmp cmp_arg hash l) := by
  induction l generalizing fuel with
  | nil => cases fuel <;> rfl
  | cons m rest ih =>
    cases fuel with
    | zero => simp at hf
    | succ f =>
      rw [searchLoopFuel, searchLoop]
      by_cases hc : m.key = hash ∧ cmp cmp_arg m.data = 0
      · rw [if_pos hc, if_pos hc]
      · rw [if_neg hc, if_neg hc]
        exact ih f (by simp at hf; omega)

/-- C10: on finite (list-modelled) chains the scanning loop of search
terminates: with fuel at least the chain length it completes and computes
exactly the search result. -/
theorem search_termination_spec (h : tommy_hashdyn) (cmp : Nat → Nat → Int)
    (cmp_arg hash fuel : Nat)
    (hf : (tommy_hashdyn_bucket h hash).length ≤ fuel) :
    searchLoopFuel fuel cmp cmp_arg hash (tommy_hashdyn_bucket h hash) =
      some (tommy_hashdyn_search h cmp cmp_arg hash) := by
  rw [tommy_hashdyn_search]
  exact searchLoopFuel_complete cmp cmp_arg hash _ fuel hf

theorem search_termination_witness :
    (tommy_hashdyn_bucket (tommy_hashdyn_insert tommy_hashdyn_init 5 3) 3).length ≤ 1 ∧
    searchLoopFuel 1 cmpEq 5 3
        (tommy_hashdyn_bucket (tommy_hashdyn_insert tommy_hashdyn_init 5 3) 3) =
      some (tommy_hashdyn_search (tommy_hashdyn_insert tommy_hashdyn_init 5 3) cmpEq 5 3) :=
  ⟨by decide,
    search_termination_spec (tommy_hashdyn_insert tommy_hashdyn_init 5 3) cmpEq 5 3 1
      (by decide)⟩

/-! ### Remove-miss is a no-op -/

/-- C6: when no stored element matches the given hash and comparator, remove
returns the table unchanged together with the not-found sentinel 0. -/
theorem remove_miss_noop_spec (h : tommy_hashdyn) (cmp : Nat → Nat → Int)
    (cmp_arg hash : Nat)
    (hmiss : ∀ i < h.bucket.length, ∀ n ∈ h.bucket.getD i [],
      ¬(n.key = hash ∧ cmp cmp_arg n.data = 0)) :
    tommy_hashdyn_remove h cmp cmp_arg hash = (h, 0) := by
  have hcm : chainMatch cmp cmp_arg hash (tommy_hashdyn_bucket h hash) = false := by
    rw [chainMatch, List.any_eq_false]
    intro n hn
    rw [tommy_hashdyn_bucket] at hn
    by_cases hidx : hash &&& h.bucket_mask < h.bucket.length
    · have := hmiss _ hidx n hn
      simpa using this
    · rw [bucket_getD_of_ge _ _ _ (Nat.le_of_not_lt hidx)] at hn
      cases hn
  rw [tommy_hashdyn_remove, hcm]
  simp

theorem remove_miss_noop_witness :
    tommy_hashdyn_remove tommy_hashdyn_init cmpEq 5 3 = (tommy_hashdyn_init, 0) :=
  remove_miss_noop_spec tommy_hashdyn_init cmpEq 5 3 (by decide)

/-! ### Null-payload ambiguity -/

lemma searchLoop_null (cmp : Nat → Nat → Int) (cmp_arg hash : Nat)
    (l : List tommy_node)
    (hnull : ∀ n ∈ l, n.key = hash → cmp cmp_arg n.data = 0 → n.data = 0) :
    searchLoop cmp cmp_arg hash l = 0 := by
  induction l with
  | nil => rfl
  | cons m rest ih =>
    rw [searchLoop]
    by_cases hc : m.key = hash ∧ cmp cmp_arg m.data = 0
    · rw [if_pos hc]
      exact hnull m (List.mem_cons_self m rest) hc.1 hc.2
    · rw [if_neg hc]
      exact ih (fun n hn => hnull n (List.mem_cons_of_mem m hn))

lemma removeFirst_fst_null (cmp : Nat → Nat → Int) (cmp_arg hash : Nat)
    (l : List tommy_node)
    (hnull : ∀ n ∈ l, n.key = hash → cmp cmp_arg n.data = 0 → n.data = 0) :
    (removeFirst cmp cmp_arg hash l).1 = 0 := by
  induction l with
  | nil => rfl
  | cons m rest ih =>
    rw [removeFirst]
    by_cases hc : m.key = hash ∧ cmp cmp_arg m.data = 0
    · rw [if_pos hc]
      exact hnull m (List.mem_cons_self m rest) hc.1 hc.2
    · rw [if_neg hc]
      exact ih (fun n hn => hnull n (List.mem_cons_of_mem m hn))

/-- Any node of a resized bucket comes from the original table. -/
lemma mem_resize_imp_mem_flatten (h : tommy_hashdyn) (b j : Nat) (n : tommy_node)
    (hn : n ∈ (tommy_hashdyn_resize h b).bucket.getD j []) :
    n ∈ h.bucket.flatten := by
  by_cases hj : j < 2 ^ b
  · exact ((mem_resize_iff h b j n hj).mp hn).1
  · rw [bucket_getD_of_ge _ _ _ (by rw [resize_bucket_length]; omega)] at hn
    cases hn

/-- C8: when every stored node matching the given hash and comparator carries
the null payload 0, search returns 0 — indistinguishable from the not-found
sentinel — and the value returned by remove is 0 as well. -/
theorem null_payload_ambiguity_spec (h : tommy_hashdyn) (cmp : Nat → Nat → Int)
    (cmp_arg hash : Nat)
    (hnull : ∀ i < h.bucket.length, ∀ n ∈ h.bucket.getD i [], n.key = hash →
      cmp cmp_arg n.data = 0 → n.data = 0) :
    tommy_hashdyn_search h cmp cmp_arg hash = 0 ∧
    (tommy_hashdyn_remove h cmp cmp_arg hash).2 = 0 := by
  have hbucket : ∀ j : Nat, ∀ n ∈ h.bucket.getD j [], n.key = hash →
      cmp cmp_arg n.data = 0 → n.data = 0 := by
    intro j n hn
    by_cases hj : j < h.bucket.length
    · exact hnull j hj n hn
    · rw [bucket_getD_of_ge _ _ _ (Nat.le_of_not_lt hj)] at hn
      cases hn
  constructor
  · rw [tommy_hashdyn_search, tommy_hashdyn_bucket]
    exact searchLoop_null cmp cmp_arg hash _ (hbucket _)
  · rw [tommy_hashdyn_remove]
    by_cases hcm : chainMatch cmp cmp_arg hash (tommy_hashdyn_bucket h hash)
    · rw [if_pos hcm]
      by_cases hs : shrinkCond h
      · simp only [if_pos hs]
        refine removeFirst_fst_null cmp cmp_arg hash _ ?_
        intro n hn
        obtain ⟨i, hi, hni⟩ := mem_flatten_imp_exists_getD h.bucket n
          (mem_resize_imp_mem_flatten h _ _ n hn)
        exact hnull i hi n hni
      · simp only [if_neg hs]
        exact removeFirst_fst_null cmp cmp_arg hash _ (hbucket _)
    · rw [if_neg hcm]

theorem null_payload_ambiguity_witness :
    (⟨3, 0⟩ : tommy_node) ∈
      tommy_hashdyn_bucket (tommy_hashdyn_insert tommy_hashdyn_init 0 3) 3 ∧
    cmpEq 0 0 = 0 ∧
    tommy_hashdyn_search (tommy_hashdyn_insert tommy_hashdyn_init 0 3) cmpEq 0 3 = 0 ∧
    (tommy_hashdyn_remove (tommy_hashdyn_insert tommy_hashdyn_init 0 3) cmpEq 0 3).2 = 0 :=
  ⟨by decide, by decide,
    (null_payload_ambiguity_spec (tommy_hashdyn_insert tommy_hashdyn_init 0 3)
      cmpEq 0 3 (by decide)).1,
    (null_payload_ambiguity_spec (tommy_hashdyn_insert tommy_hashdyn_init 0 3)
      cmpEq 0 3 (by decide)).2⟩

/-! ### Grow and shrink triggers -/

lemma insert_bucket_bit (h : tommy_hashdyn) (data hash : Nat) :
    (tommy_hashdyn_insert h data hash).bucket_bit =
      if growCond h then h.bucket_bit + 1 else h.bucket_bit := by
  rw [tommy_hashdyn_insert]
  by_cases hg : growCond h <;> simp [hg, tommy_hashdyn_resize]

lemma insert_bucket_max (h : tommy_hashdyn) (data hash : Nat) :
    (tommy_hashdyn_insert h data hash).bucket_max =
      if growCond h then 2 ^ (h.bucket_bit + 1) else h.bucket_max := by
  rw [tommy_hashdyn_insert]
  by_cases hg : growCond h <;> simp [hg, tommy_hashdyn_resize]

lemma insert_count (h : tommy_hashdyn) (data hash : Nat) :
    (tommy_hashdyn_insert h data hash).count = h.count + 1 := by
  rw [tommy_hashdyn_insert]
  by_cases hg : growCond h <;> simp [hg, tommy_hashdyn_resize]

lemma remove_found_bucket_bit (h : tommy_hashdyn) (cmp : Nat → Nat → Int)
    (cmp_arg hash : Nat)
    (hcm : chainMatch cmp cmp_arg hash (tommy_hashdyn_bucket h hash) = true) :
    (tommy_hashdyn_remove h cmp cmp_arg hash).1.bucket_bit =
      if shrinkCond h then h.bucket_bit - 1 else h.bucket_bit := by
  rw [tommy_hashdyn_remove, if_pos hcm]
  by_cases hs : shrinkCond h <;> simp [hs, tommy_hashdyn_resize]

lemma remove_found_bucket_max (h : tommy_hashdyn) (cmp : Nat → Nat → Int)
    (cmp_arg hash : Nat)
    (hcm : chainMatch cmp cmp_arg hash (tommy_hashdyn_bucket h hash) = true) :
    (tommy_hashdyn_remove h cmp cmp_arg hash).1.bucket_max =
      if shrinkCond h then 2 ^ (h.bucket_bit - 1) else h.bucket_max := by
  rw [tommy_hashdyn_remove, if_pos hcm]
  by_cases hs : shrinkCond h <;> simp [hs, tommy_hashdyn_resize]

lemma remove_found_count (h : tommy_hashdyn) (cmp : Nat → Nat → Int)
    (cmp_arg hash : Nat)
    (hcm : chainMatch cmp cmp_arg hash (tommy_hashdyn_bucket h hash) = true) :
    (tommy_hashdyn_remove h cmp cmp_arg hash).1.count = h.count - 1 := by
  rw [tommy_hashdyn_remove, if_pos hcm]
  by_cases hs : shrinkCond h <;> simp [hs, tommy_hashdyn_resize]

lemma remove_miss_eq (h : tommy_hashdyn) (cmp : Nat → Nat → Int)
    (cmp_arg hash : Nat)
    (hcm : chainMatch cmp cmp_arg hash (tommy_hashdyn_bucket h hash) = false) :
    tommy_hashdyn_remove h cmp cmp_arg hash = (h, 0) := by
  rw [tommy_hashdyn_remove, hcm]
  simp

/-- Writing a bucket and reading it back. -/
lemma set_getD_self {α : Type} (l : List α) (i : Nat) (x d : α) (hi : i < l.length) :
    (l.set i x).getD i d = x := by
  simp [List.getD_eq_getElem?_getD, List.getElem?_set_self, hi]

/-- Starting from the empty table, insert elements one at a time: the i-th
element carries hash i and payload i + 1. -/
def growScenario (n : Nat) : tommy_hashdyn :=
  (List.range n).foldl (fun t i => tommy_hashdyn_insert t (i + 1) i) tommy_hashdyn_init

/-- C1: insert checks the grow condition before linking and doubles the
capacity exactly when count + 1 exceeds half of it, linking the new node at
the head of the chain selected by the grown mask; concretely, inserting one
element at a time from the empty table, the 9th insert grows the capacity
from 16 to 32 and all 9 elements are findable afterwards. -/
theorem grow_trigger_spec (h : tommy_hashdyn) (data hash : Nat) (hinv : HashInv h) :
    (h.bucket_max / 2 < h.count + 1 →
      (tommy_hashdyn_insert h data hash).bucket_bit = h.bucket_bit + 1 ∧
      (tommy_hashdyn_insert h data hash).bucket_max = 2 * h.bucket_max ∧
      (tommy_hashdyn_insert h data hash).bucket.getD
          (hash &&& (2 * h.bucket_max - 1)) [] =
        ⟨hash, data⟩ ::
          (tommy_hashdyn_resize h (h.bucket_bit + 1)).bucket.getD
            (hash &&& (2 * h.bucket_max - 1)) []) ∧
    (¬(h.bucket_max / 2 < h.count + 1) →
      (tommy_hashdyn_insert h data hash).bucket_bit = h.bucket_bit ∧
      (tommy_hashdyn_insert h data hash).bucket_max = h.bucket_max) ∧
    (growScenario 8).bucket_max = 16 ∧
    (growScenario 8).count = 8 ∧
    (growScenario 9).bucket_max = 32 ∧
    (growScenario 9).count = 9 ∧
    (∀ i < 9, tommy_hashdyn_search (growScenario 9) cmpEq (i + 1) i = i + 1) := by
  have hmax2 : 2 * h.bucket_max = 2 ^ (h.bucket_bit + 1) := by
    rw [hinv.2.1, Nat.pow_succ, Nat.mul_comm]
  refine ⟨?_, ?_, by decide, by decide, by decide, by decide, by decide⟩
  · intro hcond
    have hg : growCond h = true := decide_eq_true hcond
    refine ⟨by rw [insert_bucket_bit, if_pos hg], by rw [insert_bucket_max, if_pos hg, hmax2], ?_⟩
    rw [tommy_hashdyn_insert]
    simp only [hg, if_true]
    set h1 := tommy_hashdyn_resize h (h.bucket_bit + 1) with hh1
    have hmask : h1.bucket_mask = 2 * h.bucket_max - 1 := by
      rw [hh1, tommy_hashdyn_resize, hmax2]
    have hidx : hash &&& h1.bucket_mask < h1.bucket.length := by
      rw [hh1, resize_bucket_length, tommy_hashdyn_resize]
      exact and_mask_lt hash (h.bucket_bit + 1)
    rw [← hmask]
    exact set_getD_self h1.bucket _ _ _ hidx
  · intro hcond
    have hg : growCond h = false := decide_eq_false hcond
    exact ⟨by rw [insert_bucket_bit, if_neg (by simp [hg])],
      by rw [insert_bucket_max, if_neg (by simp [hg])]⟩

theorem grow_trigger_witness :
    HashInv (growScenario 8) ∧
    ((growScenario 8).bucket_max / 2 < (growScenario 8).count + 1 →
      (tommy_hashdyn_insert (growScenario 8) 9 8).bucket_bit =
        (growScenario 8).bucket_bit + 1 ∧
      (tommy_hashdyn_insert (growScenario 8) 9 8).bucket_max =
        2 * (growScenario 8).bucket_max ∧
      (tommy_hashdyn_insert (growScenario 8) 9 8).bucket.getD
          (8 &&& (2 * (growScenario 8).bucket_max - 1)) [] =
        ⟨8, 9⟩ ::
          (tommy_hashdyn_resize (growScenario 8) ((growScenario 8).bucket_bit + 1)).bucket.getD
            (8 &&& (2 * (growScenario 8).bucket_max - 1)) []) ∧
    (growScenario 8).bucket_max / 2 < (growScenario 8).count + 1 :=
  ⟨by decide, (grow_trigger_spec (growScenario 8) 9 8 (by decide)).1, by decide⟩

/-- C3: on a confirmed removal the shrink condition is checked before the
node is removed, and the capacity is halved exactly when count - 1 would
drop below one-eighth of it while the capacity is above the minimum; a
remove-miss changes nothing; every triggering event moves bucket_bit by
exactly one; and bucket_bit never drops below 4 (capacity never below 16). -/
theorem shrink_trigger_spec (h : tommy_hashdyn) (cmp : Nat → Nat → Int)
    (cmp_arg hash : Nat) (hinv : HashInv h) :
    (chainMatch cmp cmp_arg hash (tommy_hashdyn_bucket h hash) = true →
      ((h.count - 1 < h.bucket_max / 8 ∧ TOMMY_HASHDYN_BIT < h.bucket_bit) →
        (tommy_hashdyn_remove h cmp cmp_arg hash).1.bucket_bit = h.bucket_bit - 1 ∧
        (tommy_hashdyn_remove h cmp cmp_arg hash).1.bucket_max = h.bucket_max / 2) ∧
      (¬(h.count - 1 < h.bucket_max / 8 ∧ TOMMY_HASHDYN_BIT < h.bucket_bit) →
        (tommy_hashdyn_remove h cmp cmp_arg hash).1.bucket_bit = h.bucket_bit ∧
        (tommy_hashdyn_remove h cmp cmp_arg hash).1.bucket_max = h.bucket_max)) ∧
    (chainMatch cmp cmp_arg hash (tommy_hashdyn_bucket h hash) = false →
      (tommy_hashdyn_remove h cmp cmp_arg hash).1 = h) ∧
    (∀ d k, (tommy_hashdyn_insert h d k).bucket_bit = h.bucket_bit ∨
            (tommy_hashdyn_insert h d k).bucket_bit = h.bucket_bit + 1) ∧
    TOMMY_HASHDYN_BIT ≤ (tommy_hashdyn_remove h cmp cmp_arg hash).1.bucket_bit ∧
    16 ≤ (tommy_hashdyn_remove h cmp cmp_arg hash).1.bucket_max := by
  have hinvr := hashInv_remove h cmp cmp_arg hash hinv
  refine ⟨?_, ?_, ?_, hinvr.1, ?_⟩
  · intro hcm
    constructor
    · intro hcond
      have hs : shrinkCond h = true := decide_eq_true hcond
      refine ⟨by rw [remove_found_bucket_bit h cmp cmp_arg hash hcm, if_pos hs], ?_⟩
      rw [remove_found_bucket_max h cmp cmp_arg hash hcm, if_pos hs, hinv.2.1]
      have hbit : 2 ^ h.bucket_bit = 2 * 2 ^ (h.bucket_bit - 1) := by
        have h5 : TOMMY_HASHDYN_BIT < h.bucket_bit := hcond.2
        have heq : h.bucket_bit - 1 + 1 = h.bucket_bit := by
          rw [TOMMY_HASHDYN_BIT] at h5
          omega
        conv_lhs => rw [← heq]
        rw [Nat.pow_succ, Nat.mul_comm]
      omega
    · intro hcond
      have hs : shrinkCond h = false := decide_eq_false hcond
      exact ⟨by rw [remove_found_bucket_bit h cmp cmp_arg hash hcm, if_neg (by simp [hs])],
        by rw [remove_found_bucket_max h cmp cmp_arg hash hcm, if_neg (by simp [hs])]⟩
  · intro hcm
    rw [remove_miss_eq h cmp cmp_arg hash hcm]
  · intro d k
    rw [insert_bucket_bit]
    by_cases hg : growCond h
    · exact Or.inr (by rw [if_pos hg])
    · exact Or.inl (by rw [if_neg hg])
  · rw [hinvr.2.1]
    calc (16 : Nat) = 2 ^ 4 := by norm_num
    _ ≤ 2 ^ (tommy_hashdyn_remove h cmp cmp_arg hash).1.bucket_bit :=
        Nat.pow_le_pow_right (by norm_num) hinvr.1

theorem shrink_trigger_witness :
    HashInv (growScenario 9) ∧
    chainMatch cmpEq 4 3 (tommy_hashdyn_bucket (growScenario 9) 3) = true ∧
    ¬((growScenario 9).count - 1 < (growScenario 9).bucket_max / 8 ∧
      TOMMY_HASHDYN_BIT < (growScenario 9).bucket_bit) ∧
    ((tommy_hashdyn_remove (growScenario 9) cmpEq 4 3).1.bucket_bit =
        (growScenario 9).bucket_bit ∧
      (tommy_hashdyn_remove (growScenario 9) cmpEq 4 3).1.bucket_max =
        (growScenario 9).bucket_max) ∧
    TOMMY_HASHDYN_BIT ≤ (tommy_hashdyn_remove (growScenario 9) cmpEq 4 3).1.bucket_bit :=
  ⟨by decide, by decide, by decide,
    ((shrink_trigger_spec (growScenario 9) cmpEq 4 3 (by decide)).1 (by decide)).2 (by decide),
    (shrink_trigger_spec (growScenario 9) cmpEq 4 3 (by decide)).2.2.2.1⟩

/-! ### Split correctness of grow -/

/-- One more mask bit splits the index into the old index plus the one
additional hash bit. -/
lemma and_mask_succ (k b : Nat) :
    k &&& (2 ^ (b + 1) - 1) =
      (k &&& (2 ^ b - 1)) + (if k.testBit b then 2 ^ b else 0) := by
  rw [Nat.and_pow_two_sub_one_eq_mod, Nat.and_pow_two_sub_one_eq_mod,
    Nat.pow_succ, Nat.mod_mul, Nat.testBit_to_div_mod]
  rcases Nat.mod_two_eq_zero_or_one (k / 2 ^ b) with hm | hm <;> simp [hm]

/-- C2: after a grow every node of old bucket i is in new bucket i or new
bucket i + old_capacity and in no other bucket, the choice being determined
solely by the hash bit selected by the newly set mask bit. -/
theorem split_correctness_spec (h : tommy_hashdyn) (n : tommy_node) (i : Nat)
    (hinv : HashInv h) (hi : i < h.bucket.length) (hn : n ∈ h.bucket.getD i []) :
    (n ∈ (tommy_hashdyn_resize h (h.bucket_bit + 1)).bucket.getD i [] ∨
     n ∈ (tommy_hashdyn_resize h (h.bucket_bit + 1)).bucket.getD
        (i + h.bucket_max) []) ∧
    (∀ j : Nat, n ∈ (tommy_hashdyn_resize h (h.bucket_bit + 1)).bucket.getD j [] →
      j = i ∨ j = i + h.bucket_max) ∧
    (n.key.testBit h.bucket_bit = false →
      n ∈ (tommy_hashdyn_resize h (h.bucket_bit + 1)).bucket.getD i [] ∧
      n ∉ (tommy_hashdyn_resize h (h.bucket_bit + 1)).bucket.getD
        (i + h.bucket_max) []) ∧
    (n.key.testBit h.bucket_bit = true →
      n ∈ (tommy_hashdyn_resize h (h.bucket_bit + 1)).bucket.getD
        (i + h.bucket_max) [] ∧
      n ∉ (tommy_hashdyn_resize h (h.bucket_bit + 1)).bucket.getD i []) := by
  obtain ⟨h1, h2, h3, h4, h5⟩ := hinv
  have hkey : n.key &&& h.bucket_mask = i := h5 i hi n hn
  have hmask : h.bucket_mask = 2 ^ h.bucket_bit - 1 := by rw [h3, h2]
  have hflat : n ∈ h.bucket.flatten := mem_getD_imp_mem_flatten h.bucket i n hn
  have hpos : 0 < h.bucket_max := h2 ▸ Nat.pos_pow_of_pos _ (by norm_num)
  have hsplit : n.key &&& (2 ^ (h.bucket_bit + 1) - 1) =
      i + (if n.key.testBit h.bucket_bit then h.bucket_max else 0) := by
    rw [and_mask_succ, ← hmask, hkey, ← h2]
  have hmemiff : ∀ j : Nat,
      n ∈ (tommy_hashdyn_resize h (h.bucket_bit + 1)).bucket.getD j [] ↔
        j = n.key &&& (2 ^ (h.bucket_bit + 1) - 1) := by
    intro j
    constructor
    · intro hj
      by_cases hjlt : j < 2 ^ (h.bucket_bit + 1)
      · exact (((mem_resize_iff h _ j n hjlt).mp hj).2).symm
      · rw [bucket_getD_of_ge _ _ _ (by rw [resize_bucket_length]; omega)] at hj
        cases hj
    · intro hj
      subst hj
      exact (mem_resize_iff h _ _ n (and_mask_lt _ _)).mpr ⟨hflat, rfl⟩
  cases htb : n.key.testBit h.bucket_bit with
  | false =>
    rw [htb, if_neg (by simp)] at hsplit
    refine ⟨Or.inl ((hmemiff i).mpr (by omega)), ?_, ?_, by simp⟩
    · intro j hj
      have := (hmemiff j).mp hj
      omega
    · intro _
      refine ⟨(hmemiff i).mpr (by omega), fun hmem => ?_⟩
      have := (hmemiff (i + h.bucket_max)).mp hmem
      omega
  | true =>
    rw [htb, if_pos rfl] at hsplit
    refine ⟨Or.inr ((hmemiff (i + h.bucket_max)).mpr (by omega)), ?_, by simp, ?_⟩
    · intro j hj
      have := (hmemiff j).mp hj
      omega
    · intro _
      refine ⟨(hmemiff (i + h.bucket_max)).mpr (by omega), fun hmem => ?_⟩
      have := (hmemiff i).mp hmem
      omega

theorem split_correctness_witness :
    HashInv (growScenario 3) ∧
    0 < (growScenario 3).bucket.length ∧
    (⟨0, 1⟩ : tommy_node) ∈ (growScenario 3).bucket.getD 0 [] ∧
    ((⟨0, 1⟩ : tommy_node) ∈
        (tommy_hashdyn_resize (growScenario 3) ((growScenario 3).bucket_bit + 1)).bucket.getD 0 [] ∨
     (⟨0, 1⟩ : tommy_node) ∈
        (tommy_hashdyn_resize (growScenario 3) ((growScenario 3).bucket_bit + 1)).bucket.getD
          (0 + (growScenario 3).bucket_max) []) :=
  ⟨by decide, by decide, by decide,
    (split_correctness_spec (growScenario 3) ⟨0, 1⟩ 0 (by decide) (by decide) (by decide)).1⟩

/-! ### The reachable-state invariant -/

/-- C5: in every reachable table state, every node stored in bucket i has its
hash mapped to i by the mask, the mask is (1 <<< bucket_bit) - 1, the bucket
array length is bucket_mask + 1, and consequently the bucket accessor returns
a chain containing every stored node whose hash is the one asked for. -/
theorem bucket_membership_invariant_spec (h : tommy_hashdyn) (hr : Reachable h) :
    (∀ i < h.bucket.length, ∀ n ∈ h.bucket.getD i [], n.key &&& h.bucket_mask = i) ∧
    h.bucket_mask = (1 <<< h.bucket_bit) - 1 ∧
    h.bucket.length = h.bucket_mask + 1 ∧
    (∀ hash : Nat, ∀ n : tommy_node, ∀ i : Nat, i < h.bucket.length →
      n ∈ h.bucket.getD i [] → n.key = hash → n ∈ tommy_hashdyn_bucket h hash) := by
  obtain ⟨h1, h2, h3, h4, h5⟩ := reachable_hashInv h hr
  have hpos : 0 < h.bucket_max := h2 ▸ Nat.pos_pow_of_pos _ (by norm_num)
  refine ⟨h5, ?_, by omega, ?_⟩
  · rw [Nat.shiftLeft_eq, one_mul, h3, h2]
  · intro hash n i hi hmem hkey
    have hbm := h5 i hi n hmem
    rw [hkey] at hbm
    rw [tommy_hashdyn_bucket, hbm]
    exact hmem

theorem bucket_membership_invariant_witness :
    (∀ i < (growScenario 2).bucket.length,
      ∀ n ∈ (growScenario 2).bucket.getD i [],
        n.key &&& (growScenario 2).bucket_mask = i) ∧
    (growScenario 2).bucket_mask = (1 <<< (growScenario 2).bucket_bit) - 1 ∧
    (growScenario 2).bucket.length = (growScenario 2).bucket_mask + 1 :=
  have hr : Reachable (growScenario 2) :=
    Reachable.insert _ 2 1 (Reachable.insert _ 1 0 Reachable.init)
  ⟨(bucket_membership_invariant_spec (growScenario 2) hr).1,
    (bucket_membership_invariant_spec (growScenario 2) hr).2.1,
    (bucket_membership_invariant_spec (growScenario 2) hr).2.2.1⟩

/-! ### Counting the stored nodes -/

lemma sum_indicator_range (m c : Nat) :
    ((List.range m).map (fun j => if c == j then 1 else 0)).sum =
      if c < m then 1 else 0 := by
  induction m with
  | zero => simp
  | succ m ih =>
    rw [List.sum_range_succ, ih]
    rcases Nat.lt_trichotomy c m with h | h | h
    · have h1 : c < m + 1 := by omega
      have h2 : (c == m) = false := by simp; omega
      simp [h, h1, h2]
    · subst h
      simp [Nat.lt_irrefl, Nat.lt_succ_self]
    · have h1 : ¬c < m := by omega
      have h2 : ¬c < m + 1 := by omega
      have h3 : (c == m) = false := by simp; omega
      simp [h1, h2, h3]

/-- Distributing a node list over the buckets selected by an index function
bounded by the bucket count preserves the total number of nodes. -/
lemma sum_filter_range (m : Nat) (idx : tommy_node → Nat) (l : List tommy_node)
    (hidx : ∀ n ∈ l, idx n < m) :
    ((List.range m).map
      (fun j => (l.filter (fun n => idx n == j)).length)).sum = l.length := by
  induction l with
  | nil => simp
  | cons n rest ih =>
    have hmap : (List.range m).map
          (fun j => ((n :: rest).filter (fun x => idx x == j)).length) =
        (List.range m).map (fun j =>
          (if idx n == j then 1 else 0) +
            (rest.filter (fun x => idx x == j)).length) := by
      refine List.map_congr_left ?_
      intro j _
      rw [List.filter_cons]
      by_cases hc : (idx n == j) = true
      · simp [hc]
        omega
      · simp [hc]
    rw [hmap, List.sum_map_add,
      ih (fun x hx => hidx x (List.mem_cons_of_mem n hx))]
    have hind := sum_indicator_range m (idx n)
    rw [if_pos (hidx n (List.mem_cons_self n rest))] at hind
    rw [hind, List.length_cons]
    omega

/-- Replacing one bucket changes the total node count by the difference of the
two chains. -/
lemma flatten_length_set {α : Type} (l : List (List α)) (i : Nat) (c : List α)
    (hi : i < l.length) :
    ((l.set i c).flatten).length + (l.getD i []).length =
      l.flatten.length + c.length := by
  induction l generalizing i with
  | nil => simp at hi
  | cons x xs ih =>
    cases i with
    | zero =>
      simp only [List.set, List.flatten_cons, List.length_append,
        List.getD_cons_zero]
      omega
    | succ j =>
      have hj : j < xs.length := by simpa using hi
      have := ih j hj
      simp only [List.set, List.flatten_cons, List.length_append,
        List.getD_cons_succ]
      omega

lemma chainMatch_iff (cmp : Nat → Nat → Int) (cmp_arg hash : Nat)
    (l : List tommy_node) :
    chainMatch cmp cmp_arg hash l = true ↔
      ∃ n ∈ l, n.key = hash ∧ cmp cmp_arg n.data = 0 := by
  rw [chainMatch, List.any_eq_true]
  constructor
  · rintro ⟨n, hn, hp⟩
    exact ⟨n, hn, by simpa using hp⟩
  · rintro ⟨n, hn, hp⟩
    exact ⟨n, hn, by simpa using hp⟩

lemma removeFirst_length (cmp : Nat → Nat → Int) (cmp_arg hash : Nat)
    (l : List tommy_node) (hcm : chainMatch cmp cmp_arg hash l = true) :
    (removeFirst cmp cmp_arg hash l).2.length + 1 = l.length := by
  induction l with
  | nil => simp [chainMatch] at hcm
  | cons m rest ih =>
    rw [removeFirst]
    by_cases hc : m.key = hash ∧ cmp cmp_arg m.data = 0
    · rw [if_pos hc]
      simp
    · rw [if_neg hc]
      have hcm' : chainMatch cmp cmp_arg hash rest = true := by
        obtain ⟨n, hn, hp⟩ := (chainMatch_iff cmp cmp_arg hash _).mp hcm
        rcases List.mem_cons.mp hn with h1 | h2
        · exact absurd (h1 ▸ hp) hc
        · exact (chainMatch_iff cmp cmp_arg hash rest).mpr ⟨n, h2, hp⟩
      simp [ih hcm']

lemma removeNode_length (node : tommy_node) (l : List tommy_node)
    (hmem : node ∈ l) : (removeNode node l).length + 1 = l.length := by
  induction l with
  | nil => cases hmem
  | cons m rest ih =>
    rw [removeNode]
    by_cases hc : m = node
    · rw [if_pos hc]
      simp
    · rw [if_neg hc]
      have hmem' : node ∈ rest := by
        rcases List.mem_cons.mp hmem with h1 | h2
        · exact absurd h1.symm hc
        · exact h2
      simp [ih hmem']

/-- The count field agrees with the total number of stored nodes. -/
def CInv (h : tommy_hashdyn) : Prop :=
  h.count = h.bucket.flatten.length

lemma cinv_init : CInv tommy_hashdyn_init := by
  rw [CInv]
  decide

lemma cinv_resize (h : tommy_hashdyn) (b : Nat) (hc : CInv h) :
    CInv (tommy_hashdyn_resize h b) := by
  rw [CInv, tommy_hashdyn_resize]
  simp only [List.length_flatten, List.map_map]
  rw [hc]
  exact (sum_filter_range (2 ^ b) (fun n => n.key &&& (2 ^ b - 1)) h.bucket.flatten
    (fun n _ => and_mask_lt n.key b)).symm

lemma shrinkStep_hashInv (h : tommy_hashdyn) (hinv : HashInv h) :
    HashInv (if shrinkCond h then tommy_hashdyn_resize h (h.bucket_bit - 1) else h) := by
  by_cases hs : shrinkCond h
  · rw [if_pos hs]
    refine hashInv_resize h _ ?_
    have := (of_decide_eq_true hs).2
    omega
  · rw [if_neg hs]
    exact hinv

lemma shrinkStep_cinv (h : tommy_hashdyn) (hc : CInv h) :
    CInv (if shrinkCond h then tommy_hashdyn_resize h (h.bucket_bit - 1) else h) := by
  by_cases hs : shrinkCond h
  · rw [if_pos hs]
    exact cinv_resize h _ hc
  · rw [if_neg hs]
    exact hc

/-- The index of the bucket being written is within the array. -/
lemma and_mask_lt_length (h : tommy_hashdyn) (hinv : HashInv h) (k : Nat) :
    k &&& h.bucket_mask < h.bucket.length := by
  have ha := Nat.and_le_right (n := k) (m := h.bucket_mask)
  have h3 := hinv.2.2.1
  have h4 := hinv.2.2.2.1
  have hpos : 0 < h.bucket_max := hinv.2.1 ▸ Nat.pos_pow_of_pos _ (by norm_num)
  omega

lemma cinv_insert (h : tommy_hashdyn) (data hash : Nat) (hinv : HashInv h)
    (hc : CInv h) : CInv (tommy_hashdyn_insert h data hash) := by
  rw [tommy_hashdyn_insert]
  set h1 := if growCond h then tommy_hashdyn_resize h (h.bucket_bit + 1) else h with hh1
  have hinv1 : HashInv h1 := by
    rw [hh1]
    by_cases hg : growCond h
    · rw [if_pos hg]
      exact hashInv_resize h _ (Nat.le_succ_of_le hinv.1)
    · rw [if_neg hg]
      exact hinv
  have hc1 : CInv h1 := by
    rw [hh1]
    by_cases hg : growCond h
    · rw [if_pos hg]
      exact cinv_resize h _ hc
    · rw [if_neg hg]
      exact hc
  have hpos := and_mask_lt_length h1 hinv1 hash
  have hset := flatten_length_set h1.bucket (hash &&& h1.bucket_mask)
    (⟨hash, data⟩ :: h1.bucket.getD (hash &&& h1.bucket_mask) []) hpos
  rw [CInv] at hc1 ⊢
  simp only [List.length_cons] at hset
  simp only []
  omega

lemma cinv_remove (h : tommy_hashdyn) (cmp : Nat → Nat → Int) (cmp_arg hash : Nat)
    (hinv : HashInv h) (hc : CInv h) :
    CInv (tommy_hashdyn_remove h cmp cmp_arg hash).1 := by
  by_cases hcm : chainMatch cmp cmp_arg hash (tommy_hashdyn_bucket h hash) = true
  · rw [tommy_hashdyn_remove, if_pos hcm]
    set h1 := if shrinkCond h then tommy_hashdyn_resize h (h.bucket_bit - 1) else h with hh1
    have hinv1 : HashInv h1 := hh1 ▸ shrinkStep_hashInv h hinv
    have hc1 : CInv h1 := hh1 ▸ shrinkStep_cinv h hc
    have hcm1 : chainMatch cmp cmp_arg hash
        (h1.bucket.getD (hash &&& h1.bucket_mask) []) = true := by
      obtain ⟨n, hn, hk, hp⟩ := (chainMatch_iff cmp cmp_arg hash _).mp hcm
      rw [tommy_hashdyn_bucket] at hn
      refine (chainMatch_iff cmp cmp_arg hash _).mpr ⟨n, ?_, hk, hp⟩
      rw [hh1]
      by_cases hs : shrinkCond h
      · rw [if_pos hs]
        have hflat : n ∈ h.bucket.flatten := mem_getD_imp_mem_flatten _ _ _ hn
        rw [show (tommy_hashdyn_resize h (h.bucket_bit - 1)).bucket_mask =
            2 ^ (h.bucket_bit - 1) - 1 from rfl, ← hk]
        exact (mem_resize_iff h _ _ n (and_mask_lt _ _)).mpr ⟨hflat, rfl⟩
      · rw [if_neg hs]
        exact hn
    have hpos := and_mask_lt_length h1 hinv1 hash
    have hset := flatten_length_set h1.bucket (hash &&& h1.bucket_mask)
      (removeFirst cmp cmp_arg hash (h1.bucket.getD (hash &&& h1.bucket_mask) [])).2 hpos
    have hlen := removeFirst_length cmp cmp_arg hash _ hcm1
    have hge : 1 ≤ h1.bucket.flatten.length := by
      obtain ⟨n, hn, _, _⟩ := (chainMatch_iff cmp cmp_arg hash _).mp hcm1
      exact List.length_pos.mpr (List.ne_nil_of_mem (mem_getD_imp_mem_flatten _ _ _ hn))
    rw [CInv] at hc1 ⊢
    simp only []
    omega
  · rw [remove_miss_eq h cmp cmp_arg hash (by simpa using hcm)]
    exact hc

lemma cinv_remove_existing (h : tommy_hashdyn) (node : tommy_node)
    (hmem : node ∈ h.bucket.getD (node.key &&& h.bucket_mask) [])
    (hinv : HashInv h) (hc : CInv h) :
    CInv (tommy_hashdyn_remove_existing h node).1 := by
  rw [tommy_hashdyn_remove_existing]
  set h1 := if shrinkCond h then tommy_hashdyn_resize h (h.bucket_bit - 1) else h with hh1
  have hinv1 : HashInv h1 := hh1 ▸ shrinkStep_hashInv h hinv
  have hc1 : CInv h1 := hh1 ▸ shrinkStep_cinv h hc
  have hmem1 : node ∈ h1.bucket.getD (node.key &&& h1.bucket_mask) [] := by
    rw [hh1]
    by_cases hs : shrinkCond h
    · rw [if_pos hs]
      have hflat : node ∈ h.bucket.flatten := mem_getD_imp_mem_flatten _ _ _ hmem
      rw [show (tommy_hashdyn_resize h (h.bucket_bit - 1)).bucket_mask =
          2 ^ (h.bucket_bit - 1) - 1 from rfl]
      exact (mem_resize_iff h _ _ node (and_mask_lt _ _)).mpr ⟨hflat, rfl⟩
    · rw [if_neg hs]
      exact hmem
  have hpos := and_mask_lt_length h1 hinv1 node.key
  have hset := flatten_length_set h1.bucket (node.key &&& h1.bucket_mask)
    (removeNode node (h1.bucket.getD (node.key &&& h1.bucket_mask) [])) hpos
  have hlen := removeNode_length node _ hmem1
  have hge : 1 ≤ h1.bucket.flatten.length :=
    List.length_pos.mpr (List.ne_nil_of_mem (mem_getD_imp_mem_flatten _ _ _ hmem1))
  rw [CInv] at hc1 ⊢
  simp only []
  omega

/-! ### The load invariant: the capacity settles back to the minimum -/

/-- Either the table is at the minimum capacity, or it holds at least an
eighth of its capacity — the hysteresis left by the 0.5 grow and 0.125
shrink thresholds. -/
def LoadInv (h : tommy_hashdyn) : Prop :=
  h.bucket_bit = TOMMY_HASHDYN_BIT ∨ h.bucket_max / 8 ≤ h.count

lemma pow2_div_pow2 (a b : Nat) (h : b ≤ a) : 2 ^ a / 2 ^ b = 2 ^ (a - b) :=
  Nat.pow_div h (by norm_num)

lemma loadInv_insert (h : tommy_hashdyn) (data hash : Nat) (hinv : HashInv h)
    (hl : LoadInv h) : LoadInv (tommy_hashdyn_insert h data hash) := by
  rw [LoadInv, insert_bucket_bit, insert_bucket_max, insert_count]
  by_cases hg : growCond h
  · rw [if_pos hg, if_pos hg]
    right
    have hcond : h.bucket_max / 2 < h.count + 1 := of_decide_eq_true hg
    have hbit := hinv.1
    rw [TOMMY_HASHDYN_BIT] at hbit
    have e2 : 2 ^ (h.bucket_bit + 1) / 8 = 2 ^ (h.bucket_bit - 2) := by
      rw [show (8 : Nat) = 2 ^ 3 by norm_num, pow2_div_pow2 _ _ (by omega)]
      have heq : h.bucket_bit + 1 - 3 = h.bucket_bit - 2 := by omega
      rw [heq]
    have e3 : h.bucket_max / 2 = 2 ^ (h.bucket_bit - 1) := by
      rw [hinv.2.1]
      have heq : h.bucket_bit - 1 + 1 = h.bucket_bit := by omega
      conv_lhs => rw [← heq, Nat.pow_succ]
      exact Nat.mul_div_cancel _ (by norm_num)
    have e4 : 2 ^ (h.bucket_bit - 2) ≤ 2 ^ (h.bucket_bit - 1) :=
      Nat.pow_le_pow_right (by norm_num) (by omega)
    rw [e2]
    omega
  · rw [if_neg hg, if_neg hg]
    rcases hl with hl | hl
    · exact Or.inl hl
    · exact Or.inr (by omega)

/-- The shrink step followed by a count decrement preserves the load
invariant — common to remove and remove_existing. -/
lemma loadInv_shrinkStep_dec (h : tommy_hashdyn) (hinv : HashInv h)
    (hl : LoadInv h) :
    (if shrinkCond h then tommy_hashdyn_resize h (h.bucket_bit - 1) else h).bucket_bit =
        TOMMY_HASHDYN_BIT ∨
    (if shrinkCond h then tommy_hashdyn_resize h (h.bucket_bit - 1) else h).bucket_max / 8 ≤
      (if shrinkCond h then tommy_hashdyn_resize h (h.bucket_bit - 1) else h).count - 1 := by
  by_cases hs : shrinkCond h
  · rw [if_pos hs]
    right
    obtain ⟨hcond, hbit5⟩ := of_decide_eq_true hs
    rw [TOMMY_HASHDYN_BIT] at hbit5
    have hright : h.bucket_max / 8 ≤ h.count := by
      rcases hl with hl | hl
      · rw [TOMMY_HASHDYN_BIT] at hl
        omega
      · exact hl
    have e0 : h.bucket_max / 8 = 2 ^ (h.bucket_bit - 3) := by
      rw [hinv.2.1, show (8 : Nat) = 2 ^ 3 by norm_num, pow2_div_pow2 _ _ (by omega)]
    have e1 : (tommy_hashdyn_resize h (h.bucket_bit - 1)).bucket_max =
        2 ^ (h.bucket_bit - 1) := rfl
    have e2 : (tommy_hashdyn_resize h (h.bucket_bit - 1)).count = h.count := rfl
    have e3 : 2 ^ (h.bucket_bit - 1) / 8 = 2 ^ (h.bucket_bit - 4) := by
      rw [show (8 : Nat) = 2 ^ 3 by norm_num, pow2_div_pow2 _ _ (by omega)]
      have heq : h.bucket_bit - 1 - 3 = h.bucket_bit - 4 := by omega
      rw [heq]
    have e4 : 2 ^ (h.bucket_bit - 3) = 2 * 2 ^ (h.bucket_bit - 4) := by
      have heq : h.bucket_bit - 4 + 1 = h.bucket_bit - 3 := by omega
      conv_lhs => rw [← heq]
      rw [Nat.pow_succ, Nat.mul_comm]
    have e5 : 1 ≤ 2 ^ (h.bucket_bit - 4) := Nat.pos_pow_of_pos _ (by norm_num)
    rw [e1, e2, e3]
    omega
  · rw [if_neg hs]
    by_cases hc2 : TOMMY_HASHDYN_BIT < h.bucket_bit
    · have hc1 : ¬(h.count - 1 < h.bucket_max / 8) := by
        intro hlt
        have hsc : shrinkCond h = true := by
          rw [shrinkCond]
          exact decide_eq_true ⟨hlt, hc2⟩
        exact hs hsc
      exact Or.inr (by omega)
    · have hbit := hinv.1
      exact Or.inl (by omega)

lemma loadInv_remove (h : tommy_hashdyn) (cmp : Nat → Nat → Int) (cmp_arg hash : Nat)
    (hinv : HashInv h) (hl : LoadInv h) :
    LoadInv (tommy_hashdyn_remove h cmp cmp_arg hash).1 := by
  by_cases hcm : chainMatch cmp cmp_arg hash (tommy_hashdyn_bucket h hash) = true
  · rw [tommy_hashdyn_remove, if_pos hcm]
    exact loadInv_shrinkStep_dec h hinv hl
  · rw [remove_miss_eq h cmp cmp_arg hash (by simpa using hcm)]
    exact hl

lemma loadInv_remove_existing (h : tommy_hashdyn) (node : tommy_node)
    (hinv : HashInv h) (hl : LoadInv h) :
    LoadInv (tommy_hashdyn_remove_existing h node).1 := by
  rw [tommy_hashdyn_remove_existing]
  exact loadInv_shrinkStep_dec h hinv hl

/-- Every reachable state satisfies the structural, counting and load
invariants. -/
lemma reachable_fullInv (h : tommy_hashdyn) (hr : Reachable h) :
    HashInv h ∧ CInv h ∧ LoadInv h := by
  induction hr with
  | init => exact ⟨hashInv_init, cinv_init, Or.inl rfl⟩
  | insert g data hash _ ih =>
    exact ⟨hashInv_insert g data hash ih.1, cinv_insert g data hash ih.1 ih.2.1,
      loadInv_insert g data hash ih.1 ih.2.2⟩
  | remove g cmp cmp_arg hash _ ih =>
    exact ⟨hashInv_remove g cmp cmp_arg hash ih.1,
      cinv_remove g cmp cmp_arg hash ih.1 ih.2.1,
      loadInv_remove g cmp cmp_arg hash ih.1 ih.2.2⟩
  | remove_existing g node hmem _ ih =>
    exact ⟨hashInv_remove_existing g node ih.1,
      cinv_remove_existing g node hmem ih.1 ih.2.1,
      loadInv_remove_existing g node ih.1 ih.2.2⟩

/-! ### Operation traces: count consistency and the round trip -/

/-- A public mutating operation: an insert (payload, hash) or a remove by
comparator and hash. -/
inductive Op where
  | ins : Nat → Nat → Op
  | rem : (Nat → Nat → Int) → Nat → Nat → Op

/-- Apply one operation to the table. -/
def applyOp (h : tommy_hashdyn) : Op → tommy_hashdyn
  | Op.ins data hash => tommy_hashdyn_insert h data hash
  | Op.rem cmp cmp_arg hash => (tommy_hashdyn_remove h cmp cmp_arg hash).1

/-- Run a sequence of operations. -/
def runOps (h : tommy_hashdyn) : List Op → tommy_hashdyn
  | [] => h
  | op :: ops => runOps (applyOp h op) ops

/-- Number of inserts in a trace (every insert succeeds). -/
def numIns : List Op → Nat
  | [] => 0
  | Op.ins _ _ :: ops => numIns ops + 1
  | Op.rem _ _ _ :: ops => numIns ops

/-- Number of removes of a trace that find their element, evaluated along the
run from the given starting state. -/
def numSucc (h : tommy_hashdyn) : List Op → Nat
  | [] => 0
  | Op.ins data hash :: ops => numSucc (tommy_hashdyn_insert h data hash) ops
  | Op.rem cmp cmp_arg hash :: ops =>
    (if chainMatch cmp cmp_arg hash (tommy_hashdyn_bucket h hash) then 1 else 0) +
      numSucc (tommy_hashdyn_remove h cmp cmp_arg hash).1 ops

lemma reachable_runOps (h : tommy_hashdyn) (hr : Reachable h) (ops : List Op) :
    Reachable (runOps h ops) := by
  induction ops generalizing h with
  | nil => exact hr
  | cons op ops ih =>
    cases op with
    | ins data hash => exact ih _ (Reachable.insert h data hash hr)
    | rem cmp cmp_arg hash => exact ih _ (Reachable.remove h cmp cmp_arg hash hr)

lemma runOps_count (ops : List Op) (h : tommy_hashdyn) (hr : Reachable h) :
    (runOps h ops).count + numSucc h ops = h.count + numIns ops := by
  induction ops generalizing h with
  | nil => simp [runOps, numSucc, numIns]
  | cons op ops ih =>
    cases op with
    | ins data hash =>
      have hrec := ih (tommy_hashdyn_insert h data hash) (Reachable.insert h data hash hr)
      have hcount := insert_count h data hash
      simp only [runOps, numSucc, numIns, applyOp]
      omega
    | rem cmp cmp_arg hash =>
      by_cases hcm : chainMatch cmp cmp_arg hash (tommy_hashdyn_bucket h hash) = true
      · have hrec := ih (tommy_hashdyn_remove h cmp cmp_arg hash).1
          (Reachable.remove h cmp cmp_arg hash hr)
        have hcount := remove_found_count h cmp cmp_arg hash hcm
        have hge : 1 ≤ h.count := by
          have hc := (reachable_fullInv h hr).2.1
          obtain ⟨n, hn, _, _⟩ := (chainMatch_iff cmp cmp_arg hash _).mp hcm
          rw [tommy_hashdyn_bucket] at hn
          have hmem := mem_getD_imp_mem_flatten _ _ _ hn
          have := List.length_pos.mpr (List.ne_nil_of_mem hmem)
          rw [CInv] at hc
          omega
        simp only [runOps, numSucc, numIns, applyOp, if_pos hcm]
        omega
      · have hmiss := remove_miss_eq h cmp cmp_arg hash (by simpa using hcm)
        have hrec := ih (tommy_hashdyn_remove h cmp cmp_arg hash).1
          (Reachable.remove h cmp cmp_arg hash hr)
        simp only [runOps, numSucc, numIns, applyOp, if_neg hcm]
        rw [hmiss] at hrec ⊢
        simpa using hrec

/-- C7: along any trace of inserts and removes from the freshly initialized
table the count equals successful inserts minus successful removes, and
whenever the count is back to 0 the capacity has settled back to 16. -/
theorem round_trip_count_spec (ops : List Op) :
    (runOps tommy_hashdyn_init ops).count + numSucc tommy_hashdyn_init ops =
      numIns ops ∧
    ((runOps tommy_hashdyn_init ops).count = 0 →
      (runOps tommy_hashdyn_init ops).bucket_max = 16 ∧
      (runOps tommy_hashdyn_init ops).bucket_bit = TOMMY_HASHDYN_BIT) := by
  have hr := reachable_runOps tommy_hashdyn_init Reachable.init ops
  constructor
  · have hcnt := runOps_count ops tommy_hashdyn_init Reachable.init
    have h0 : tommy_hashdyn_init.count = 0 := rfl
    omega
  · intro h0
    obtain ⟨hinv, hc, hl⟩ := reachable_fullInv _ hr
    rcases hl with hl | hl
    · refine ⟨?_, hl⟩
      rw [hinv.2.1, hl]
      rfl
    · exfalso
      have h16 : 16 ≤ (runOps tommy_hashdyn_init ops).bucket_max := by
        rw [hinv.2.1]
        calc (16 : Nat) = 2 ^ 4 := by norm_num
        _ ≤ 2 ^ (runOps tommy_hashdyn_init ops).bucket_bit :=
            Nat.pow_le_pow_right (by norm_num) hinv.1
      omega

/-- The concrete round trip: insert 9 elements, then remove all 9. -/
def roundTripOps : List Op :=
  (List.range 9).map (fun i => Op.ins (i + 1) i) ++
  (List.range 9).map (fun i => Op.rem cmpEq (i + 1) i)

theorem round_trip_count_witness :
    (runOps tommy_hashdyn_init roundTripOps).count = 0 ∧
    (runOps tommy_hashdyn_init roundTripOps).bucket_max = 16 ∧
    numSucc tommy_hashdyn_init roundTripOps = numIns roundTripOps := by
  have h0 : (runOps tommy_hashdyn_init roundTripOps).count = 0 := by decide
  refine ⟨h0, ((round_trip_count_spec roundTripOps).2 h0).1, ?_⟩
  have h1 := (round_trip_count_spec roundTripOps).1
  omega

end Tommy
